import Mathlib

/-
Verification development for the scikit-qulacs learning-circuit registry
(src/skqulacs/circuit/circuit.py) and the QCL classification script
(src/qcl_classification_test.py).

Modelling conventions:
* Python floats are modelled as real numbers.
* The underlying ParametricQuantumCircuit is modelled by the list of its
  parametric-gate angles, indexed by gate position; get_parameter_count is
  the length of that list.  Non-parametric gates, qubit indices and the
  actual quantum-state simulation are irrelevant to the parameter
  bookkeeping and are abstracted (the simulator is an external capability).
* Python exceptions (IndexError, TypeError) are modelled by Option: a call
  that would raise returns none.
-/

/-- Rotation-axis tag, from the private axis enumeration in circuit.py. -/
inductive Axis
  | X
  | Y
  | Z
deriving DecidableEq

/-- A learning parameter of the circuit: pos is its index in the
underlying parametric circuit, theta_pos its index in the flat vector of
learning parameters, value the cached current value, and is_input records
whether the parameter is also driven by an input transform. -/
structure LearningParameter where
  pos : Nat
  theta_pos : Nat
  value : ℝ
  is_input : Bool

/-- The transform stored in an input parameter: either a function of the
data vector alone, or a function of a companion learning-parameter value
and the data vector (the Union type InputFunc / InputFuncWithParam). -/
inductive InputFuncU
  | plain (f : List ℝ → ℝ)
  | withParam (f : ℝ → List ℝ → ℝ)

/-- An input parameter: pos is its gate position, func the transform, and
companion_theta_pos the optional theta index of a companion learning
parameter read and overwritten by the transform. -/
structure InputParameter where
  pos : Nat
  func : InputFuncU
  companion_theta_pos : Option Nat

/-- The LearningCircuit registry: the underlying circuit parametric-gate
angles (circuit_params, indexed by pos) together with the learning- and
input-parameter lists. -/
structure LearningCircuit where
  n_qubit : Nat
  circuit_params : List ℝ
  learning_parameter_list : List LearningParameter
  input_parameter_list : List InputParameter

/-- The constructor of LearningCircuit: empty parametric circuit and empty
parameter lists. -/
def LearningCircuit.init (n_qubit : Nat) : LearningCircuit :=
  ⟨n_qubit, [], [], []⟩

/-- One add_parametric_R{X,Y,Z}_gate call (method
_add_parametric_R_gate_inner): record a learning parameter at the current
parameter count with theta_pos equal to the current learning count, then
append a parametric rotation gate carrying the initial parameter.  All
three axes append one parametric-gate angle. -/
def add_parametric_R_gate_inner (c : LearningCircuit) (_index : Nat)
    (parameter : ℝ) (target : Axis) : LearningCircuit :=
  let lp : LearningParameter :=
    ⟨c.circuit_params.length, c.learning_parameter_list.length, parameter, false⟩
  let c1 : LearningCircuit :=
    ⟨c.n_qubit, c.circuit_params, c.learning_parameter_list ++ [lp],
      c.input_parameter_list⟩
  match target with
  | Axis.X =>
    ⟨c1.n_qubit, c1.circuit_params ++ [parameter], c1.learning_parameter_list,
      c1.input_parameter_list⟩
  | Axis.Y =>
    ⟨c1.n_qubit, c1.circuit_params ++ [parameter], c1.learning_parameter_list,
      c1.input_parameter_list⟩
  | Axis.Z =>
    ⟨c1.n_qubit, c1.circuit_params ++ [parameter], c1.learning_parameter_list,
      c1.input_parameter_list⟩

/-- One add_input_R{X,Y,Z}_gate call (method _add_input_R_gate_inner):
record an input parameter, with no companion, at the current parameter
count, then append a parametric rotation gate initialised at 0. -/
def add_input_R_gate_inner (c : LearningCircuit) (_index : Nat)
    (target : Axis) (input_func : List ℝ → ℝ) : LearningCircuit :=
  let c1 : LearningCircuit :=
    ⟨c.n_qubit, c.circuit_params, c.learning_parameter_list,
      c.input_parameter_list ++
        [⟨c.circuit_params.length, InputFuncU.plain input_func, none⟩]⟩
  match target with
  | Axis.X =>
    ⟨c1.n_qubit, c1.circuit_params ++ [0], c1.learning_parameter_list,
      c1.input_parameter_list⟩
  | Axis.Y =>
    ⟨c1.n_qubit, c1.circuit_params ++ [0], c1.learning_parameter_list,
      c1.input_parameter_list⟩
  | Axis.Z =>
    ⟨c1.n_qubit, c1.circuit_params ++ [0], c1.learning_parameter_list,
      c1.input_parameter_list⟩

/-- One add_parametric_input_R{X,Y,Z}_gate call (method
_add_parametric_input_R_gate_inner): record a learning parameter with
is_input set, and an input parameter whose companion_theta_pos is that
learning parameter's theta_pos, both at the same gate position; then append
a parametric rotation gate carrying the initial parameter. -/
def add_parametric_input_R_gate_inner (c : LearningCircuit) (_index : Nat)
    (parameter : ℝ) (target : Axis)
    (input_func : ℝ → List ℝ → ℝ) : LearningCircuit :=
  let pos := c.circuit_params.length
  let lp : LearningParameter :=
    ⟨pos, c.learning_parameter_list.length, parameter, true⟩
  let c1 : LearningCircuit :=
    ⟨c.n_qubit, c.circuit_params, c.learning_parameter_list ++ [lp],
      c.input_parameter_list ++
        [⟨pos, InputFuncU.withParam input_func, some lp.theta_pos⟩]⟩
  match target with
  | Axis.X =>
    ⟨c1.n_qubit, c1.circuit_params ++ [parameter], c1.learning_parameter_list,
      c1.input_parameter_list⟩
  | Axis.Y =>
    ⟨c1.n_qubit, c1.circuit_params ++ [parameter], c1.learning_parameter_list,
      c1.input_parameter_list⟩
  | Axis.Z =>
    ⟨c1.n_qubit, c1.circuit_params ++ [parameter], c1.learning_parameter_list,
      c1.input_parameter_list⟩

/-- One iteration of the loop in update_parameters: read
theta[parameter.theta_pos] (none models the IndexError raised when
theta_pos is out of range of theta), set the parameter's cached value and
push the value into the circuit at the parameter's gate position.  The
accumulator carries the learning parameters processed so far and the
circuit angles. -/
def update_parameters_step (theta : List ℝ)
    (st : List LearningParameter × List ℝ) (p : LearningParameter) :
    Option (List LearningParameter × List ℝ) :=
  match theta[p.theta_pos]? with
  | none => none
  | some parameter_value =>
    some (st.1 ++ [⟨p.pos, p.theta_pos, parameter_value, p.is_input⟩],
      st.2.set p.pos parameter_value)

/-- LearningCircuit.update_parameters: iterate update_parameters_step over
the learning-parameter list.  There is no length check on theta in the
source; the call fails only when some theta_pos is out of range of theta. -/
def update_parameters (c : LearningCircuit) (theta : List ℝ) :
    Option LearningCircuit :=
  (c.learning_parameter_list.foldlM (update_parameters_step theta)
      ([], c.circuit_params)).map
    (fun st => ⟨c.n_qubit, st.2, st.1, c.input_parameter_list⟩)

/-- LearningCircuit.get_parameters: the cached values of the learning
parameters, in list order. -/
def get_parameters (c : LearningCircuit) : List ℝ :=
  c.learning_parameter_list.map (fun p => p.value)

/-- One iteration of the loop in _set_input: compute the angle from the
transform (reading, and then overwriting, the companion learning
parameter's value when a companion is present) and push the angle into the
circuit at the input parameter's gate position.  none models the Python
TypeError of a transform applied with the wrong arity and the IndexError of
an out-of-range companion index. -/
def set_input_step (x : List ℝ)
    (st : List LearningParameter × List ℝ) (p : InputParameter) :
    Option (List LearningParameter × List ℝ) :=
  match p.companion_theta_pos with
  | none =>
    match p.func with
    | InputFuncU.plain f => some (st.1, st.2.set p.pos (f x))
    | InputFuncU.withParam _ => none
  | some j =>
    match p.func with
    | InputFuncU.plain _ => none
    | InputFuncU.withParam f =>
      match st.1[j]? with
      | none => none
      | some theta =>
        let angle := f theta.value x
        some (st.1.set j ⟨theta.pos, theta.theta_pos, angle, theta.is_input⟩,
          st.2.set p.pos angle)

/-- LearningCircuit._set_input: iterate set_input_step over the
input-parameter list in insertion order. -/
def set_input (c : LearningCircuit) (x : List ℝ) : Option LearningCircuit :=
  (c.input_parameter_list.foldlM (set_input_step x)
      (c.learning_parameter_list, c.circuit_params)).map
    (fun st => ⟨c.n_qubit, st.2, st.1, c.input_parameter_list⟩)

/-- One iteration of the routing loop in LearningCircuit.backprop: skip
learning parameters marked is_input, otherwise write the per-gate-position
gradient ret[parameter.pos] into the answer vector at the parameter's
theta_pos.  none models the IndexError of an out-of-range read or write. -/
def backprop_route_step (ret : List ℝ) (ans : List ℝ)
    (p : LearningParameter) : Option (List ℝ) :=
  if p.is_input then some ans
  else
    match ret[p.pos]? with
    | none => none
    | some g =>
      if p.theta_pos < ans.length then some (ans.set p.theta_pos g) else none

/-- The routing part of LearningCircuit.backprop: starting from a zero
vector of length equal to the learning-parameter count, route the
per-gate-position gradient vector ret into per-theta-index entries. -/
def backprop_route (c : LearningCircuit) (ret : List ℝ) : Option (List ℝ) :=
  c.learning_parameter_list.foldlM (backprop_route_step ret)
    (List.replicate c.learning_parameter_list.length 0)

/-- LearningCircuit.backprop: bind the inputs with x, then route the
per-gate-position gradient vector ret returned by the simulator's backprop
capability (the call self._circuit.backprop(obs), an external capability
abstracted as the argument ret) into per-theta-index entries. -/
def backprop (c : LearningCircuit) (x : List ℝ) (ret : List ℝ) :
    Option (List ℝ) :=
  (set_input c x).bind (fun c1 => backprop_route c1 ret)

/-- An add operation on a LearningCircuit, used to quantify over all
interleavings of gate additions that touch the parameter lists. -/
inductive AddOp
  | learn (index : Nat) (parameter : ℝ) (target : Axis)
  | inp (index : Nat) (target : Axis) (input_func : List ℝ → ℝ)
  | coupled (index : Nat) (parameter : ℝ) (target : Axis)
      (input_func : ℝ → List ℝ → ℝ)

/-- Apply one add operation. -/
def applyOp (c : LearningCircuit) : AddOp → LearningCircuit
  | AddOp.learn index parameter target =>
    add_parametric_R_gate_inner c index parameter target
  | AddOp.inp index target f => add_input_R_gate_inner c index target f
  | AddOp.coupled index parameter target f =>
    add_parametric_input_R_gate_inner c index parameter target f

/-- Build a LearningCircuit from a fresh registry by a sequence of add
operations. -/
def buildCircuit (n_qubit : Nat) (ops : List AddOp) : LearningCircuit :=
  ops.foldl applyOp (LearningCircuit.init n_qubit)

/-- The theta-index invariant: the theta_pos fields of the
learning-parameter list are exactly 0, 1, ..., count-1 in order. -/
def thetaIndexInvariant (c : LearningCircuit) : Prop :=
  c.learning_parameter_list.map (fun p => p.theta_pos) =
    List.range c.learning_parameter_list.length

/-- The minimum of a numpy array modelled on a list of reals: none on the
empty array (numpy rejects it), otherwise the fold of min over the
entries. -/
def npMin : List ℝ → Option ℝ
  | [] => none
  | a :: t => some (t.foldl min a)

/-- The maximum of a numpy array modelled on a list of reals, as npMin. -/
def npMax : List ℝ → Option ℝ
  | [] => none
  | a :: t => some (t.foldl max a)

/-- All entries of a batch matrix (rows are samples, columns are
features), in row-major order. -/
def matrixEntries (b : List (List ℝ)) : List ℝ := b.flatten

/-- Column j of a batch matrix. -/
def getColumn (j : Nat) (b : List (List ℝ)) : List ℝ :=
  b.filterMap (fun row => row[j]?)

/-- The function min_max_scaling of qcl_classification_test.py as invoked
by set_input_state, i.e. with the default axis=None: min and max are taken
over all entries of the batch, result = (x - min)/(max - min) followed by
result = 2*result - 1, elementwise. -/
noncomputable def min_max_scaling (x : List (List ℝ)) :
    Option (List (List ℝ)) :=
  match npMin (matrixEntries x), npMax (matrixEntries x) with
  | some m, some M =>
    some (x.map (List.map (fun v => 2 * ((v - m) / (M - m)) - 1)))
  | _, _ => none

/-- QclClassification.set_input_state: normalise the batch with
min_max_scaling (axis=None), then encode each normalised sample into a
quantum state.  The state preparation (create_input_gate followed by
application to the zero state and a copy) is the abstract capability
encode. -/
noncomputable def set_input_state {σ : Type} (encode : List ℝ → σ)
    (x_list : List (List ℝ)) : Option (List σ) :=
  (min_max_scaling x_list).map (fun xs => xs.map encode)

/-- The function softmax of qcl_classification_test.py: exponentiate
entrywise and divide by the sum of the exponentials. -/
noncomputable def softmax (x : List ℝ) : List ℝ :=
  let exp_x := x.map Real.exp
  exp_x.map (fun e => e / (x.map Real.exp).sum)

/-- Elementwise sum of two vectors (numpy vector addition of equal-length
arrays). -/
def vecAdd (a b : List ℝ) : List ℝ := List.zipWith (fun u v => u + v) a b

/-- Elementwise difference of two vectors. -/
def vecSub (a b : List ℝ) : List ℝ := List.zipWith (fun u v => u - v) a b

/-- Row i of np.eye(n): the standard basis vector with a 1 in position
i. -/
def eyeRow (n i : Nat) : List ℝ :=
  (List.range n).map (fun j => if i = j then (1 : ℝ) else 0)

/-- Multiplication of a vector by a scalar. -/
def scaleVec (c : ℝ) (a : List ℝ) : List ℝ := a.map (fun v => c * v)

/-- The vector theta_plus[i] of QclClassification.B_grad:
theta + np.eye(len(theta))[i] * pi/2. -/
noncomputable def theta_plus (theta : List ℝ) (i : Nat) : List ℝ :=
  vecAdd theta (scaleVec (Real.pi / 2) (eyeRow theta.length i))

/-- The vector theta_minus[i] of QclClassification.B_grad:
theta - np.eye(len(theta))[i] * pi/2. -/
noncomputable def theta_minus (theta : List ℝ) (i : Nat) : List ℝ :=
  vecSub theta (scaleVec (Real.pi / 2) (eyeRow theta.length i))

/-- Elementwise difference of two matrices. -/
def matSub (A B : List (List ℝ)) : List (List ℝ) :=
  List.zipWith vecSub A B

/-- Division of a matrix by 2, elementwise. -/
noncomputable def matHalf (A : List (List ℝ)) : List (List ℝ) :=
  A.map (List.map (fun v => v / 2))

/-- QclClassification.B_grad: for each i in range(len(theta)), the matrix
(pred(theta_plus[i]) - pred(theta_minus[i])) / 2, where pred is the full
prediction function (modelled as the function argument pred since its
value depends on the captured input states and observables). -/
noncomputable def B_grad (pred : List ℝ → List (List ℝ)) (theta : List ℝ) :
    List (List (List ℝ)) :=
  (List.range theta.length).map
    (fun i => matHalf (matSub (pred (theta_plus theta i))
      (pred (theta_minus theta i))))

/-- The mutable state of a QclClassification object that pred touches:
the stored theta, the captured input states, and the parametric angles of
the output gate U_out. -/
structure QclState (σ : Type) where
  theta : List ℝ
  input_state_list : List σ
  gate_params : List ℝ

/-- The loop of update_output_gate: for i in range(n), set output-gate
parameter i to theta[i]. -/
def setParamsLoop (ps theta : List ℝ) : Nat → List ℝ
  | 0 => ps
  | n + 1 => (setParamsLoop ps theta n).set n (theta.getD n 0)

/-- QclClassification.update_output_gate: store theta, then set the first
len(theta) output-gate parameters from theta. -/
def update_output_gate {σ : Type} (s : QclState σ) (theta : List ℝ) :
    QclState σ :=
  ⟨theta, s.input_state_list, setParamsLoop s.gate_params theta theta.length⟩

/-- QclClassification.pred: copy each captured input state (st.copy() per
element, an independent deep copy — states are immutable values here),
update the output gate with theta, then for each copied state apply the
output gate (the deterministic simulator capability exec, a function of
the gate angles), take each observable's expectation value (the capability
list obs) and apply softmax.  Returns the matrix of class probabilities
together with the mutated object state. -/
noncomputable def pred {σ : Type} (exec : List ℝ → σ → σ)
    (obs : List (σ → ℝ)) (s : QclState σ) (theta : List ℝ) :
    List (List ℝ) × QclState σ :=
  let st_list := s.input_state_list.map (fun st => st)
  let s1 := update_output_gate s theta
  (st_list.map (fun st => softmax (obs.map (fun o => o (exec s1.gate_params st)))),
    s1)

/-- A concrete transform used by witnesses and counterexamples: add the
companion value and the first data entry. -/
def fW : ℝ → List ℝ → ℝ := fun theta x => theta + x.getD 0 0

/-- The fields of a learning parameter other than the cached value. -/
def projFields (p : LearningParameter) : Nat × Nat × Bool :=
  (p.pos, p.theta_pos, p.is_input)

/-- A concrete one-qubit registry with a single learning parameter,
used by witnesses and counterexamples. -/
def cW : LearningCircuit := buildCircuit 1 [AddOp.learn 0 5 Axis.X]

/-- A concrete one-qubit registry with a single coupled
(learning-and-input) parameter. -/
def cW4 : LearningCircuit := buildCircuit 1 [AddOp.coupled 0 5 Axis.X fW]

/-- The registry cW4 after binding the input [1]. -/
def cW4a : LearningCircuit :=
  ⟨1, [fW 5 [1]], [⟨0, 0, fW 5 [1], true⟩],
    [⟨0, InputFuncU.withParam fW, some 0⟩]⟩

/-- The registry cW4 after binding the input [1] and then the input [2]. -/
def cW4b : LearningCircuit :=
  ⟨1, [fW (fW 5 [1]) [2]], [⟨0, 0, fW (fW 5 [1]) [2], true⟩],
    [⟨0, InputFuncU.withParam fW, some 0⟩]⟩

/-- A concrete registry with one learning-only and one coupled
parameter. -/
def cW3 : LearningCircuit :=
  buildCircuit 1 [AddOp.learn 0 5 Axis.X, AddOp.coupled 0 7 Axis.X fW]

/-- The registry cW3 after binding the input [2]. -/
def cW3a : LearningCircuit :=
  ⟨1, [5, fW 7 [2]], [⟨0, 0, 5, false⟩, ⟨1, 1, fW 7 [2], true⟩],
    [⟨1, InputFuncU.withParam fW, some 1⟩]⟩

/-- A concrete one-angle prediction function used by the parameter-shift
witness. -/
def predW : List ℝ → List (List ℝ) := fun t => [[t.getD 0 0]]

theorem learning_add_parametric (c : LearningCircuit) (index : Nat)
    (parameter : ℝ) (target : Axis) :
    (add_parametric_R_gate_inner c index parameter target).learning_parameter_list =
      c.learning_parameter_list ++
        [⟨c.circuit_params.length, c.learning_parameter_list.length, parameter,
          false⟩] := by
  cases target <;> rfl

theorem learning_add_input (c : LearningCircuit) (index : Nat)
    (target : Axis) (f : List ℝ → ℝ) :
    (add_input_R_gate_inner c index target f).learning_parameter_list =
      c.learning_parameter_list := by
  cases target <;> rfl

theorem learning_add_coupled (c : LearningCircuit) (index : Nat)
    (parameter : ℝ) (target : Axis) (f : ℝ → List ℝ → ℝ) :
    (add_parametric_input_R_gate_inner c index parameter target f).learning_parameter_list =
      c.learning_parameter_list ++
        [⟨c.circuit_params.length, c.learning_parameter_list.length, parameter,
          true⟩] := by
  cases target <;> rfl

theorem inv_applyOp (c : LearningCircuit) (op : AddOp)
    (h : thetaIndexInvariant c) : thetaIndexInvariant (applyOp c op) := by
  cases op with
  | learn index parameter target =>
    unfold thetaIndexInvariant at h ⊢
    rw [applyOp, learning_add_parametric, List.map_append, h,
      List.length_append]
    simp [List.range_succ]
  | inp index target f =>
    unfold thetaIndexInvariant at h ⊢
    rw [applyOp, learning_add_input]
    exact h
  | coupled index parameter target f =>
    unfold thetaIndexInvariant at h ⊢
    rw [applyOp, learning_add_coupled, List.map_append, h,
      List.length_append]
    simp [List.range_succ]

theorem inv_foldl (ops : List AddOp) (c : LearningCircuit)
    (h : thetaIndexInvariant c) :
    thetaIndexInvariant (ops.foldl applyOp c) := by
  induction ops generalizing c with
  | nil => exact h
  | cons op rest ih => exact ih _ (inv_applyOp c op h)

/-- Claim C6: for every registry built by any interleaving of
learning-only, input-only and input-coupled gate additions, the theta_pos
values of the learning-parameter list are exactly 0, ..., count-1, in
order, with no duplicates and no gaps. -/
theorem c6_theta_index_invariant (n : Nat) (ops : List AddOp) :
    thetaIndexInvariant (buildCircuit n ops) :=
  inv_foldl ops (LearningCircuit.init n) rfl

theorem upd_fold_some (theta : List ℝ) (l : List LearningParameter)
    (acc : List LearningParameter) (ps : List ℝ)
    (h : ∀ p ∈ l, p.theta_pos < theta.length) :
    ∃ ps2, l.foldlM (update_parameters_step theta) (acc, ps) =
      some (acc ++ l.map
        (fun p => ⟨p.pos, p.theta_pos, theta.getD p.theta_pos 0, p.is_input⟩),
        ps2) := by
  induction l generalizing acc ps with
  | nil => exact ⟨ps, by simp⟩
  | cons p t ih =>
    have hp : p.theta_pos < theta.length := h p (List.mem_cons_self p t)
    have hsome : theta[p.theta_pos]? = some (theta.getD p.theta_pos 0) := by
      rw [List.getElem?_eq_getElem hp, List.getD_eq_getElem?_getD,
        List.getElem?_eq_getElem hp]
      rfl
    have ht : ∀ q ∈ t, q.theta_pos < theta.length :=
      fun q hq => h q (List.mem_cons_of_mem p hq)
    obtain ⟨ps2, h2⟩ := ih (acc ++
      [⟨p.pos, p.theta_pos, theta.getD p.theta_pos 0, p.is_input⟩])
      (ps.set p.pos (theta.getD p.theta_pos 0)) ht
    refine ⟨ps2, ?_⟩
    rw [List.foldlM_cons]
    simp only [update_parameters_step, hsome, Option.bind_eq_bind,
      Option.some_bind]
    rw [h2]
    simp

theorem upd_fold_none (theta : List ℝ) (l : List LearningParameter)
    (acc : List LearningParameter) (ps : List ℝ) (p : LearningParameter)
    (hp : p ∈ l) (hlen : theta.length ≤ p.theta_pos) :
    l.foldlM (update_parameters_step theta) (acc, ps) = none := by
  induction l generalizing acc ps with
  | nil => cases hp
  | cons q t ih =>
    rw [List.foldlM_cons]
    rcases List.mem_cons.mp hp with hq | hq
    · subst hq
      have : theta[p.theta_pos]? = none := by
        rw [List.getElem?_eq_none hlen]
      simp only [update_parameters_step, this]
      rfl
    · cases hsome : theta[q.theta_pos]? with
      | none => simp only [update_parameters_step, hsome]; rfl
      | some v =>
        simp only [update_parameters_step, hsome, Option.bind_eq_bind,
          Option.some_bind]
        exact ih _ _ hq

/-- Claim C1, counterexample: a theta vector strictly longer than the
learning-parameter count does not make update_parameters fail — there is
no dimension check in the code (and no DimensionMismatch error exists),
the extra entries are silently ignored. -/
theorem c1_counterexample :
    (update_parameters cW [3 / 10, 2 / 5]).isSome = true ∧
    cW.learning_parameter_list.length = 1 ∧
    ([3 / 10, (2 : ℝ) / 5] : List ℝ).length ≠ 1 := by
  refine ⟨rfl, rfl, by simp⟩

/-- Claim C1, amended: update_parameters performs no length check and
raises no DimensionMismatch; for a registry satisfying the theta-index
invariant it succeeds exactly when the supplied theta vector is at least
as long as the learning-parameter count (a longer vector succeeds with the
extra entries ignored; a shorter one fails with an index error). -/
theorem c1_no_dimension_check (c : LearningCircuit) (theta : List ℝ)
    (hinv : thetaIndexInvariant c) :
    (update_parameters c theta).isSome = true ↔
      c.learning_parameter_list.length ≤ theta.length := by
  constructor
  · intro h
    by_contra hlt
    push_neg at hlt
    have hmem : theta.length ∈
        c.learning_parameter_list.map (fun p => p.theta_pos) := by
      rw [hinv]
      exact List.mem_range.mpr hlt
    obtain ⟨p, hp, hpe⟩ := List.mem_map.mp hmem
    have hnone := upd_fold_none theta c.learning_parameter_list []
      c.circuit_params p hp (le_of_eq hpe.symm)
    rw [update_parameters, hnone] at h
    simp at h
  · intro hle
    have hall : ∀ p ∈ c.learning_parameter_list,
        p.theta_pos < theta.length := by
      intro p hp
      have hmem : p.theta_pos ∈
          List.range c.learning_parameter_list.length := by
        rw [← hinv]
        exact List.mem_map_of_mem _ hp
      exact lt_of_lt_of_le (List.mem_range.mp hmem) hle
    obtain ⟨ps2, h2⟩ := upd_fold_some theta c.learning_parameter_list []
      c.circuit_params hall
    rw [update_parameters, h2]
    rfl

/-- Witness for c1_no_dimension_check at a concrete registry and theta. -/
theorem c1_witness :
    thetaIndexInvariant cW ∧
    ((update_parameters cW [(7 : ℝ) / 10]).isSome = true ↔
      cW.learning_parameter_list.length ≤ 1) :=
  ⟨rfl, c1_no_dimension_check cW [(7 : ℝ) / 10] rfl⟩

theorem range_map_getD (theta : List ℝ) :
    (List.range theta.length).map (fun i => theta.getD i 0) = theta := by
  apply List.ext_getElem?
  intro j
  by_cases hj : j < theta.length
  · rw [List.getElem?_map, List.getElem?_range hj,
      List.getElem?_eq_getElem hj]
    simp [List.getD_eq_getElem?_getD, List.getElem?_eq_getElem hj]
  · push_neg at hj
    rw [List.getElem?_map, List.getElem?_eq_none (by simpa using hj),
      List.getElem?_eq_none hj]
    rfl

/-- Claim C5: on a registry satisfying the theta-index invariant, after a
successful update_parameters with a theta vector of length equal to the
learning-parameter count, get_parameters returns exactly that vector. -/
theorem c5_update_then_get (c : LearningCircuit) (theta : List ℝ)
    (hinv : thetaIndexInvariant c)
    (hlen : theta.length = c.learning_parameter_list.length) :
    ∃ c2, update_parameters c theta = some c2 ∧ get_parameters c2 = theta := by
  have hall : ∀ p ∈ c.learning_parameter_list,
      p.theta_pos < theta.length := by
    intro p hp
    have hmem : p.theta_pos ∈
        List.range c.learning_parameter_list.length := by
      rw [← hinv]
      exact List.mem_map_of_mem _ hp
    exact lt_of_lt_of_le (List.mem_range.mp hmem) (le_of_eq hlen.symm)
  obtain ⟨ps2, h2⟩ := upd_fold_some theta c.learning_parameter_list []
    c.circuit_params hall
  refine ⟨_, by rw [update_parameters, h2]; rfl, ?_⟩
  have h3 : c.learning_parameter_list.map (fun p => theta.getD p.theta_pos 0)
      = theta := by
    have h4 := congrArg (List.map (fun i => theta.getD i 0)) hinv
    rw [List.map_map, ← hlen, range_map_getD] at h4
    exact h4
  rw [get_parameters]
  simp only [List.nil_append, List.map_map]
  exact h3

/-- Witness for c5_update_then_get at a concrete registry and theta. -/
theorem c5_witness :
    thetaIndexInvariant cW ∧
    ([(9 : ℝ) / 10] : List ℝ).length = cW.learning_parameter_list.length ∧
    ∃ c2, update_parameters cW [(9 : ℝ) / 10] = some c2 ∧
      get_parameters c2 = [(9 : ℝ) / 10] :=
  ⟨rfl, rfl, c5_update_then_get cW [(9 : ℝ) / 10] rfl rfl⟩

theorem map_proj_set (lp : List LearningParameter) (i : Nat)
    (a th : LearningParameter) (hth : lp[i]? = some th)
    (hproj : projFields a = projFields th) :
    (lp.set i a).map projFields = lp.map projFields := by
  have hi : i < lp.length := by
    by_contra hge
    push_neg at hge
    rw [List.getElem?_eq_none hge] at hth
    cases hth
  apply List.ext_getElem?
  intro j
  rw [List.getElem?_map, List.getElem?_map, List.getElem?_set]
  by_cases hij : i = j
  · subst hij
    rw [if_pos rfl, if_pos hi, hth]
    simp [hproj]
  · rw [if_neg hij]

theorem set_input_fold_frame (x : List ℝ) (l : List InputParameter) :
    ∀ (lp : List LearningParameter) (ps : List ℝ)
      (lp2 : List LearningParameter) (ps2 : List ℝ),
    l.foldlM (set_input_step x) (lp, ps) = some (lp2, ps2) →
    lp2.map projFields = lp.map projFields ∧
    (∀ j, (∀ q ∈ l, q.companion_theta_pos ≠ some j) → lp2[j]? = lp[j]?) := by
  induction l with
  | nil =>
    intro lp ps lp2 ps2 h
    simp only [List.foldlM_nil] at h
    cases h
    exact ⟨rfl, fun j _ => rfl⟩
  | cons q t ih =>
    intro lp ps lp2 ps2 h
    rw [List.foldlM_cons] at h
    cases hcomp : q.companion_theta_pos with
    | none =>
      cases hfunc : q.func with
      | plain f =>
        simp only [set_input_step, hcomp, hfunc, Option.bind_eq_bind,
          Option.some_bind] at h
        obtain ⟨hm, hu⟩ := ih lp (ps.set q.pos (f x)) lp2 ps2 h
        refine ⟨hm, fun j hj => hu j (fun r hr =>
          hj r (List.mem_cons_of_mem q hr))⟩
      | withParam f =>
        simp only [set_input_step, hcomp, hfunc, Option.bind_eq_bind,
          Option.none_bind] at h
        cases h
    | some j0 =>
      cases hfunc : q.func with
      | plain f =>
        simp only [set_input_step, hcomp, hfunc, Option.bind_eq_bind,
          Option.none_bind] at h
        cases h
      | withParam f =>
        cases hth : lp[j0]? with
        | none =>
          simp only [set_input_step, hcomp, hfunc, hth,
            Option.bind_eq_bind, Option.none_bind] at h
          cases h
        | some th =>
          simp only [set_input_step, hcomp, hfunc, hth,
            Option.bind_eq_bind, Option.some_bind] at h
          obtain ⟨hm, hu⟩ := ih
            (lp.set j0 ⟨th.pos, th.theta_pos, f th.value x, th.is_input⟩)
            (ps.set q.pos (f th.value x)) lp2 ps2 h
          constructor
          · rw [hm, map_proj_set lp j0
              ⟨th.pos, th.theta_pos, f th.value x, th.is_input⟩ th hth rfl]
          · intro j hj
            have hne : j0 ≠ j := by
              intro heq
              exact hj q (List.mem_cons_self q t) (by rw [hcomp, heq])
            rw [hu j (fun r hr => hj r (List.mem_cons_of_mem q hr)),
              List.getElem?_set_ne hne]

theorem set_input_fold_of_some (c : LearningCircuit) (x : List ℝ)
    (c2 : LearningCircuit) (h : set_input c x = some c2) :
    c2.input_parameter_list = c.input_parameter_list ∧
    c2.n_qubit = c.n_qubit ∧
    c.input_parameter_list.foldlM (set_input_step x)
        (c.learning_parameter_list, c.circuit_params) =
      some (c2.learning_parameter_list, c2.circuit_params) := by
  rw [set_input] at h
  cases hfold : c.input_parameter_list.foldlM (set_input_step x)
      (c.learning_parameter_list, c.circuit_params) with
  | none => rw [hfold] at h; cases h
  | some st =>
    rw [hfold] at h
    obtain ⟨lp2, ps2⟩ := st
    simp only [Option.map_some'] at h
    cases h
    exact ⟨rfl, rfl, rfl⟩

/-- Claim C10: _set_input changes neither the input-parameter list nor the
structure of the learning-parameter list: every learning parameter keeps
its pos, theta_pos and is_input fields, and every learning parameter that
is not referenced as a companion by some input slot is left entirely
unchanged (only companion-referenced value fields may change). -/
theorem c10_set_input_frame (c : LearningCircuit) (x : List ℝ)
    (c2 : LearningCircuit) (h : set_input c x = some c2) :
    c2.input_parameter_list = c.input_parameter_list ∧
    c2.n_qubit = c.n_qubit ∧
    c2.learning_parameter_list.map projFields =
      c.learning_parameter_list.map projFields ∧
    (∀ j, (∀ q ∈ c.input_parameter_list, q.companion_theta_pos ≠ some j) →
      c2.learning_parameter_list[j]? = c.learning_parameter_list[j]?) := by
  obtain ⟨hi, hn, hfold⟩ := set_input_fold_of_some c x c2 h
  obtain ⟨hm, hu⟩ := set_input_fold_frame x c.input_parameter_list
    c.learning_parameter_list c.circuit_params
    c2.learning_parameter_list c2.circuit_params hfold
  exact ⟨hi, hn, hm, hu⟩

/-- Witness for c10_set_input_frame on a concrete registry. -/
theorem c10_witness :
    set_input cW [] = some cW ∧
    (cW.input_parameter_list = cW.input_parameter_list ∧
    cW.n_qubit = cW.n_qubit ∧
    cW.learning_parameter_list.map projFields =
      cW.learning_parameter_list.map projFields ∧
    (∀ j, (∀ q ∈ cW.input_parameter_list, q.companion_theta_pos ≠ some j) →
      cW.learning_parameter_list[j]? = cW.learning_parameter_list[j]?)) :=
  ⟨rfl, c10_set_input_frame cW [] cW rfl⟩

theorem set_input_chain (x : List ℝ) (j : Nat) (p : InputParameter)
    (f : ℝ → List ℝ → ℝ) (hfunc : p.func = InputFuncU.withParam f)
    (l : List InputParameter) :
    ∀ (lp : List LearningParameter) (ps : List ℝ)
      (lp2 : List LearningParameter) (ps2 : List ℝ) (th : LearningParameter),
    l.filter (fun q => q.companion_theta_pos == some j) = [p] →
    lp[j]? = some th →
    l.foldlM (set_input_step x) (lp, ps) = some (lp2, ps2) →
    lp2[j]? = some ⟨th.pos, th.theta_pos, f th.value x, th.is_input⟩ := by
  induction l with
  | nil =>
    intro lp ps lp2 ps2 th hfil
    simp at hfil
  | cons q t ih =>
    intro lp ps lp2 ps2 th hfil hth h
    rw [List.foldlM_cons] at h
    rw [List.filter_cons] at hfil
    by_cases hq : (q.companion_theta_pos == some j) = true
    · rw [if_pos hq] at hfil
      obtain ⟨hqp, htf⟩ := List.cons_eq_cons.mp hfil
      subst hqp
      have hcomp : q.companion_theta_pos = some j := by
        exact beq_iff_eq.mp hq
      have hj : j < lp.length := by
        by_contra hge
        push_neg at hge
        rw [List.getElem?_eq_none hge] at hth
        cases hth
      simp only [set_input_step, hcomp, hfunc, hth, Option.bind_eq_bind,
        Option.some_bind] at h
      obtain ⟨_, hu⟩ := set_input_fold_frame x t _ _ lp2 ps2 h
      have hnone : ∀ r ∈ t, r.companion_theta_pos ≠ some j := by
        intro r hr heq
        have : (r.companion_theta_pos == some j) = true := by
          rw [heq]; exact beq_self_eq_true _
        have hmem : r ∈ t.filter (fun q => q.companion_theta_pos == some j) :=
          List.mem_filter.mpr ⟨hr, this⟩
        rw [htf] at hmem
        cases hmem
      rw [hu j hnone, List.getElem?_set, if_pos rfl, if_pos hj]
    · rw [if_neg hq] at hfil
      have hne : q.companion_theta_pos ≠ some j := by
        intro heq
        exact hq (by rw [heq]; exact beq_self_eq_true _)
      cases hcomp : q.companion_theta_pos with
      | none =>
        cases hfq : q.func with
        | plain g =>
          simp only [set_input_step, hcomp, hfq, Option.bind_eq_bind,
            Option.some_bind] at h
          exact ih lp (ps.set q.pos (g x)) lp2 ps2 th hfil hth h
        | withParam g =>
          simp only [set_input_step, hcomp, hfq, Option.bind_eq_bind,
            Option.none_bind] at h
          cases h
      | some j0 =>
        have hj0 : j0 ≠ j := by
          intro heq
          exact hne (by rw [hcomp, heq])
        cases hfq : q.func with
        | plain g =>
          simp only [set_input_step, hcomp, hfq, Option.bind_eq_bind,
            Option.none_bind] at h
          cases h
        | withParam g =>
          cases hth0 : lp[j0]? with
          | none =>
            simp only [set_input_step, hcomp, hfq, hth0,
              Option.bind_eq_bind, Option.none_bind] at h
            cases h
          | some th0 =>
            simp only [set_input_step, hcomp, hfq, hth0,
              Option.bind_eq_bind, Option.some_bind] at h
            have hth1 : (lp.set j0
                ⟨th0.pos, th0.theta_pos, g th0.value x, th0.is_input⟩)[j]? =
                some th := by
              rw [List.getElem?_set_ne hj0]
              exact hth
            exact ih _ (ps.set q.pos (g th0.value x)) lp2 ps2 th hfil hth1 h

/-- Claim C4: in a registry whose input-parameter list contains exactly one
slot referencing companion theta index j, with transform f, each
successful _set_input call with data x overwrites the companion learning
parameter's cached value with the transform output f(companionValue, x);
after two successive calls with data x1 then x2 the companion's value is
the most recent transform output f(f(v0, x1), x2), not the original
initializer v0. -/
theorem c4_companion_overwrite (c : LearningCircuit) (x1 x2 : List ℝ)
    (j : Nat) (p : InputParameter) (f : ℝ → List ℝ → ℝ)
    (th : LearningParameter) (c1 c2 : LearningCircuit)
    (hfilter : c.input_parameter_list.filter
      (fun q => q.companion_theta_pos == some j) = [p])
    (hfunc : p.func = InputFuncU.withParam f)
    (hth : c.learning_parameter_list[j]? = some th)
    (h1 : set_input c x1 = some c1)
    (h2 : set_input c1 x2 = some c2) :
    c1.learning_parameter_list[j]? =
      some ⟨th.pos, th.theta_pos, f th.value x1, th.is_input⟩ ∧
    c2.learning_parameter_list[j]? =
      some ⟨th.pos, th.theta_pos, f (f th.value x1) x2, th.is_input⟩ := by
  obtain ⟨hi1, _, hfold1⟩ := set_input_fold_of_some c x1 c1 h1
  have hc1 : c1.learning_parameter_list[j]? =
      some ⟨th.pos, th.theta_pos, f th.value x1, th.is_input⟩ :=
    set_input_chain x1 j p f hfunc c.input_parameter_list
      c.learning_parameter_list c.circuit_params
      c1.learning_parameter_list c1.circuit_params th hfilter hth hfold1
  obtain ⟨hi2, _, hfold2⟩ := set_input_fold_of_some c1 x2 c2 h2
  have hc2 := set_input_chain x2 j p f hfunc c1.input_parameter_list
    c1.learning_parameter_list c1.circuit_params
    c2.learning_parameter_list c2.circuit_params
    ⟨th.pos, th.theta_pos, f th.value x1, th.is_input⟩
    (by rw [hi1]; exact hfilter) hc1 hfold2
  exact ⟨hc1, hc2⟩

/-- Witness for c4_companion_overwrite on a concrete registry with one
coupled slot, bound with [1] and then [2]. -/
theorem c4_witness :
    cW4.input_parameter_list.filter
      (fun q => q.companion_theta_pos == some 0) =
      [⟨0, InputFuncU.withParam fW, some 0⟩] ∧
    (⟨0, InputFuncU.withParam fW, some 0⟩ : InputParameter).func =
      InputFuncU.withParam fW ∧
    cW4.learning_parameter_list[0]? = some ⟨0, 0, 5, true⟩ ∧
    set_input cW4 [1] = some cW4a ∧
    set_input cW4a [2] = some cW4b ∧
    (cW4a.learning_parameter_list[0]? = some ⟨0, 0, fW 5 [1], true⟩ ∧
     cW4b.learning_parameter_list[0]? =
       some ⟨0, 0, fW (fW 5 [1]) [2], true⟩) :=
  ⟨rfl, rfl, rfl, rfl, rfl,
    c4_companion_overwrite cW4 [1] [2] 0
      ⟨0, InputFuncU.withParam fW, some 0⟩ fW ⟨0, 0, 5, true⟩ cW4a cW4b
      rfl rfl rfl rfl rfl⟩

theorem route_fold_congr (ret : List ℝ) (l1 : List LearningParameter) :
    ∀ (l2 : List LearningParameter),
    l1.map projFields = l2.map projFields →
    ∀ ans, l1.foldlM (backprop_route_step ret) ans =
      l2.foldlM (backprop_route_step ret) ans := by
  induction l1 with
  | nil =>
    intro l2 h ans
    cases l2 with
    | nil => rfl
    | cons q t2 => simp at h
  | cons p t ih =>
    intro l2 h ans
    cases l2 with
    | nil => simp at h
    | cons q t2 =>
      simp only [List.map_cons, List.cons.injEq] at h
      obtain ⟨hpq, ht⟩ := h
      have he1 : p.pos = q.pos := congrArg Prod.fst hpq
      have he2 : p.theta_pos = q.theta_pos :=
        congrArg (fun z => z.2.1) hpq
      have he3 : p.is_input = q.is_input :=
        congrArg (fun z => z.2.2) hpq
      rw [List.foldlM_cons, List.foldlM_cons]
      have hstep : backprop_route_step ret ans p =
          backprop_route_step ret ans q := by
        unfold backprop_route_step
        rw [he1, he2, he3]
      rw [hstep]
      cases backprop_route_step ret ans q with
      | none => rfl
      | some ans1 =>
        simp only [Option.bind_eq_bind, Option.some_bind]
        exact ih t2 ht ans1

theorem route_fold_char (ret : List ℝ) (l : List LearningParameter) :
    ∀ (ans : List ℝ),
    (∀ p ∈ l, p.is_input = false → p.pos < ret.length) →
    (∀ p ∈ l, p.theta_pos < ans.length) →
    List.Pairwise (fun p q => p.theta_pos ≠ q.theta_pos) l →
    ∃ ans2, l.foldlM (backprop_route_step ret) ans = some ans2 ∧
      ans2.length = ans.length ∧
      (∀ p ∈ l, ans2[p.theta_pos]? =
        if p.is_input then ans[p.theta_pos]? else some (ret.getD p.pos 0)) ∧
      (∀ j, (∀ p ∈ l, p.theta_pos ≠ j) → ans2[j]? = ans[j]?) := by
  induction l with
  | nil =>
    intro ans _ _ _
    exact ⟨ans, rfl, rfl, fun p hp => absurd hp (List.not_mem_nil p),
      fun j _ => rfl⟩
  | cons p t ih =>
    intro ans hpos hth hpair
    rw [List.pairwise_cons] at hpair
    obtain ⟨hhead, hpt⟩ := hpair
    have hplen : p.theta_pos < ans.length := hth p (List.mem_cons_self p t)
    obtain ⟨ans1, hstep, hlen1, hself, huntouched1⟩ :
        ∃ ans1, backprop_route_step ret ans p = some ans1 ∧
          ans1.length = ans.length ∧
          ans1[p.theta_pos]? = (if p.is_input then ans[p.theta_pos]?
            else some (ret.getD p.pos 0)) ∧
          ∀ j, p.theta_pos ≠ j → ans1[j]? = ans[j]? := by
      cases hpi : p.is_input with
      | true =>
        refine ⟨ans, ?_, rfl, by simp, fun j _ => rfl⟩
        unfold backprop_route_step
        rw [hpi, if_pos rfl]
      | false =>
        have hret : ret[p.pos]? = some (ret.getD p.pos 0) := by
          rw [List.getElem?_eq_getElem (hpos p (List.mem_cons_self p t) hpi),
            List.getD_eq_getElem?_getD,
            List.getElem?_eq_getElem (hpos p (List.mem_cons_self p t) hpi)]
          rfl
        refine ⟨ans.set p.theta_pos (ret.getD p.pos 0), ?_,
          List.length_set ans _ _, ?_, ?_⟩
        · unfold backprop_route_step
          rw [hpi, hret, if_neg (show ¬(false = true) by simp)]
          exact if_pos hplen
        · rw [List.getElem?_set]
          simp [hplen]
        · intro j hj
          exact List.getElem?_set_ne hj
    obtain ⟨ans2, hfold2, hlen2, hper, hun⟩ := ih ans1
      (fun q hq hqi => hpos q (List.mem_cons_of_mem p hq) hqi)
      (fun q hq => hlen1 ▸ hth q (List.mem_cons_of_mem p hq)) hpt
    refine ⟨ans2, ?_, hlen2.trans hlen1, ?_, ?_⟩
    · rw [List.foldlM_cons, hstep, Option.bind_eq_bind, Option.some_bind,
        hfold2]
    · intro q hq
      rcases List.mem_cons.mp hq with hq | hq
      · subst hq
        have h1 : ans2[q.theta_pos]? = ans1[q.theta_pos]? :=
          hun q.theta_pos (fun r hr => (hhead r hr).symm)
        rw [h1, hself]
      · have h1 := hper q hq
        have h2 : ans1[q.theta_pos]? = ans[q.theta_pos]? :=
          huntouched1 q.theta_pos (hhead q hq)
        rw [h1, h2]
    · intro j hj
      rw [hun j (fun r hr => hj r (List.mem_cons_of_mem p hr)),
        huntouched1 j (hj p (List.mem_cons_self p t))]

/-- Claim C3, counterexample: a learning parameter created by an
input-coupled addition (is_input set) does NOT receive the simulator
gradient at its gate position — the routing loop skips every learning
parameter marked is_input, leaving its theta entry at 0.  Here the
registry has exactly one learning parameter, at gate position 0 with theta
index 0, the simulator returns the per-position gradient [1], and backprop
returns [0] instead of [1]. -/
theorem c3_counterexample :
    backprop cW4 [0] [1] = some [0] ∧
    cW4.learning_parameter_list[0]? = some ⟨0, 0, 5, true⟩ ∧
    ([1] : List ℝ)[0]? = some 1 ∧
    ((0 : ℝ) ≠ 1) :=
  ⟨rfl, rfl, rfl, by norm_num⟩

/-- Claim C3, amended: after a successful input binding, backprop returns
a per-theta-index vector of length equal to the learning-parameter count
in which every learning parameter with is_input = false receives the
per-gate-position gradient at its gate position, while the theta entries
of is_input learning parameters (input-coupled ones) are left at 0;
input-only gate positions have no theta entry at all. -/
theorem c3_backprop_routing (c c1 : LearningCircuit) (x ret : List ℝ)
    (hinv : thetaIndexInvariant c)
    (hpos : ∀ p ∈ c.learning_parameter_list, p.is_input = false →
      p.pos < ret.length)
    (hset : set_input c x = some c1) :
    ∃ ans, backprop c x ret = some ans ∧
      ans.length = c.learning_parameter_list.length ∧
      ∀ (i : Nat) (th : LearningParameter),
        c.learning_parameter_list[i]? = some th →
        ans[i]? = some (if th.is_input then 0 else ret.getD th.pos 0) := by
  obtain ⟨hi, hn, hfold⟩ := set_input_fold_of_some c x c1 hset
  obtain ⟨hm, _⟩ := set_input_fold_frame x c.input_parameter_list
    c.learning_parameter_list c.circuit_params
    c1.learning_parameter_list c1.circuit_params hfold
  have hlen : c1.learning_parameter_list.length =
      c.learning_parameter_list.length := by
    have := congrArg List.length hm
    simpa using this
  have hth : ∀ p ∈ c.learning_parameter_list,
      p.theta_pos <
        (List.replicate c.learning_parameter_list.length (0 : ℝ)).length := by
    intro p hp
    have hmem : p.theta_pos ∈
        List.range c.learning_parameter_list.length := by
      rw [← hinv]
      exact List.mem_map_of_mem _ hp
    simpa using List.mem_range.mp hmem
  have hpair : List.Pairwise (fun p q : LearningParameter =>
      p.theta_pos ≠ q.theta_pos) c.learning_parameter_list := by
    have hnd : (c.learning_parameter_list.map
        (fun p => p.theta_pos)).Nodup := by
      rw [hinv]
      exact List.nodup_range _
    exact List.pairwise_map.mp hnd
  obtain ⟨ans2, hfold2, hlen2, hper, _⟩ := route_fold_char ret
    c.learning_parameter_list
    (List.replicate c.learning_parameter_list.length (0 : ℝ)) hpos hth hpair
  refine ⟨ans2, ?_, by simpa using hlen2, ?_⟩
  · rw [backprop, hset, Option.some_bind, backprop_route, hlen,
      route_fold_congr ret c1.learning_parameter_list
        c.learning_parameter_list hm
        (List.replicate c.learning_parameter_list.length (0 : ℝ)), hfold2]
  · intro i th hith
    have hmem : th ∈ c.learning_parameter_list := List.getElem?_mem hith
    have hilt : i < c.learning_parameter_list.length := by
      by_contra hge
      push_neg at hge
      rw [List.getElem?_eq_none hge] at hith
      cases hith
    have htp : th.theta_pos = i := by
      have h1 : (c.learning_parameter_list.map
          (fun p => p.theta_pos))[i]? = some th.theta_pos := by
        rw [List.getElem?_map, hith]
        rfl
      rw [hinv, List.getElem?_range hilt] at h1
      exact (Option.some_inj.mp h1).symm
    have h2 := hper th hmem
    rw [htp] at h2
    rw [h2]
    cases hti : th.is_input with
    | true =>
      rw [if_pos rfl, if_pos rfl, List.getElem?_replicate, if_pos hilt]
    | false =>
      rw [if_neg (by simp), if_neg (by simp)]

/-- Witness for c3_backprop_routing at a registry with one learning-only
and one coupled parameter. -/
theorem c3_witness :
    thetaIndexInvariant cW3 ∧
    (∀ p ∈ cW3.learning_parameter_list, p.is_input = false →
      p.pos < ([11, 13] : List ℝ).length) ∧
    set_input cW3 [2] = some cW3a ∧
    (∃ ans, backprop cW3 [2] [11, 13] = some ans ∧
      ans.length = cW3.learning_parameter_list.length ∧
      ∀ (i : Nat) (th : LearningParameter),
        cW3.learning_parameter_list[i]? = some th →
        ans[i]? = some (if th.is_input then 0 else
          ([11, 13] : List ℝ).getD th.pos 0)) := by
  refine ⟨rfl, by decide, rfl, ?_⟩
  exact c3_backprop_routing cW3 cW3a [2] [11, 13] rfl (by decide) rfl

theorem sum_map_div (l : List ℝ) (c : ℝ) :
    (l.map (fun e => e / c)).sum = l.sum / c := by
  induction l with
  | nil => simp
  | cons a t ih => simp [ih, add_div]

/-- Claim C9, counterexample: on the empty input vector softmax returns
the empty vector, whose entries sum to 0, not 1 (numpy: np.exp of an
empty array is empty, its sum is 0.0, and the elementwise quotient is
again the empty array). -/
theorem c9_counterexample :
    softmax ([] : List ℝ) = [] ∧
    (softmax ([] : List ℝ)).sum = 0 ∧ ((0 : ℝ) ≠ 1) :=
  ⟨rfl, rfl, by norm_num⟩

/-- Claim C9, amended: for every nonempty real input vector, the softmax
output is entrywise non-negative and its entries sum to exactly 1. -/
theorem c9_softmax_normalised (x : List ℝ) (hne : x ≠ []) :
    (softmax x).sum = 1 ∧ ∀ v ∈ softmax x, 0 ≤ v := by
  have hpos : 0 < (x.map Real.exp).sum := by
    apply List.sum_pos
    · intro a ha
      obtain ⟨b, _, hb⟩ := List.mem_map.mp ha
      rw [← hb]
      exact Real.exp_pos b
    · simpa using hne
  constructor
  · simp only [softmax]
    rw [sum_map_div]
    exact div_self (ne_of_gt hpos)
  · intro v hv
    simp only [softmax] at hv
    obtain ⟨e, he, hev⟩ := List.mem_map.mp hv
    obtain ⟨b, _, hb⟩ := List.mem_map.mp he
    rw [← hev]
    exact div_nonneg (le_of_lt (hb ▸ Real.exp_pos b)) (le_of_lt hpos)

/-- Witness for c9_softmax_normalised at the vector [0]. -/
theorem c9_witness :
    (([0] : List ℝ) ≠ []) ∧
    ((softmax [0]).sum = 1 ∧ ∀ v ∈ softmax [0], 0 ≤ v) :=
  ⟨by simp, c9_softmax_normalised [0] (by simp)⟩

theorem map_min_mono (f : ℝ → ℝ) (hf : Monotone f) (a b : ℝ) :
    f (min a b) = min (f a) (f b) := by
  rcases le_total a b with h | h
  · rw [min_eq_left h, min_eq_left (hf h)]
  · rw [min_eq_right h, min_eq_right (hf h)]

theorem map_max_mono (f : ℝ → ℝ) (hf : Monotone f) (a b : ℝ) :
    f (max a b) = max (f a) (f b) := by
  rcases le_total a b with h | h
  · rw [max_eq_right h, max_eq_right (hf h)]
  · rw [max_eq_left h, max_eq_left (hf h)]

theorem foldl_min_map (f : ℝ → ℝ) (hf : Monotone f) (t : List ℝ) :
    ∀ a, (t.map f).foldl min (f a) = f (t.foldl min a) := by
  induction t with
  | nil => intro a; rfl
  | cons b t ih =>
    intro a
    rw [List.map_cons, List.foldl_cons, List.foldl_cons,
      ← map_min_mono f hf]
    exact ih (min a b)

theorem foldl_max_map (f : ℝ → ℝ) (hf : Monotone f) (t : List ℝ) :
    ∀ a, (t.map f).foldl max (f a) = f (t.foldl max a) := by
  induction t with
  | nil => intro a; rfl
  | cons b t ih =>
    intro a
    rw [List.map_cons, List.foldl_cons, List.foldl_cons,
      ← map_max_mono f hf]
    exact ih (max a b)

theorem npMin_map (f : ℝ → ℝ) (hf : Monotone f) (l : List ℝ) :
    npMin (l.map f) = (npMin l).map f := by
  cases l with
  | nil => rfl
  | cons a t =>
    simp only [npMin, List.map_cons, Option.map_some']
    rw [foldl_min_map f hf t a]

theorem npMax_map (f : ℝ → ℝ) (hf : Monotone f) (l : List ℝ) :
    npMax (l.map f) = (npMax l).map f := by
  cases l with
  | nil => rfl
  | cons a t =>
    simp only [npMax, List.map_cons, Option.map_some']
    rw [foldl_max_map f hf t a]

/-- Claim C2, amended: the normalization used by set_input_state (axis is
the default None) is a single global min-max scaling over the whole batch
matrix: for every batch whose entries are not all equal, the scaled
output attains minimum exactly -1 and maximum exactly +1 over the entire
matrix (not per feature column; a column reaches -1 or +1 only if it
contains a global extremum). -/
theorem c2_global_scaling (x : List (List ℝ)) (m M : ℝ)
    (hm : npMin (matrixEntries x) = some m)
    (hM : npMax (matrixEntries x) = some M)
    (hlt : m < M) :
    ∃ y, min_max_scaling x = some y ∧
      npMin (matrixEntries y) = some (-1) ∧
      npMax (matrixEntries y) = some 1 := by
  have hMm : (0 : ℝ) < M - m := sub_pos.mpr hlt
  have hmono : Monotone (fun v => 2 * ((v - m) / (M - m)) - 1) := by
    intro a b hab
    have h1 : (a - m) / (M - m) ≤ (b - m) / (M - m) :=
      (div_le_div_iff_of_pos_right hMm).mpr (by linarith)
    simp only []
    linarith
  refine ⟨x.map (List.map (fun v => 2 * ((v - m) / (M - m)) - 1)), ?_, ?_, ?_⟩
  · simp only [min_max_scaling, hm, hM]
  · have hent : matrixEntries
        (x.map (List.map (fun v => 2 * ((v - m) / (M - m)) - 1))) =
        (matrixEntries x).map (fun v => 2 * ((v - m) / (M - m)) - 1) := by
      rw [matrixEntries, matrixEntries, ← List.map_flatten]
    rw [hent, npMin_map _ hmono, hm, Option.map_some']
    have : 2 * ((m - m) / (M - m)) - 1 = -1 := by
      rw [sub_self, zero_div, mul_zero, zero_sub]
    rw [this]
  · have hent : matrixEntries
        (x.map (List.map (fun v => 2 * ((v - m) / (M - m)) - 1))) =
        (matrixEntries x).map (fun v => 2 * ((v - m) / (M - m)) - 1) := by
      rw [matrixEntries, matrixEntries, ← List.map_flatten]
    rw [hent, npMax_map _ hmono, hM, Option.map_some']
    have : 2 * ((M - m) / (M - m)) - 1 = 1 := by
      rw [div_self (ne_of_gt hMm)]
      norm_num
    rw [this]

/-- Claim C2, counterexample: on the non-constant batch [[0,1],[2,3]]
(two samples, two feature columns, each column non-constant), the
normalization applied by set_input_state (min_max_scaling with the default
axis=None) scales with the global minimum 0 and global maximum 3, giving
[[-1,-1/3],[1/3,1]]; feature column 0 of the result is [-1, 1/3], whose
maximum is 1/3, not +1 — the scaling is not per feature column. -/
theorem c2_counterexample :
    min_max_scaling [[0, 1], [2, 3]] = some [[-1, -(1 / 3)], [1 / 3, 1]] ∧
    getColumn 0 [[(-1 : ℝ), -(1 / 3)], [1 / 3, 1]] = [-1, 1 / 3] ∧
    npMax [(-1 : ℝ), 1 / 3] = some (1 / 3) ∧
    ((1 : ℝ) / 3 ≠ 1) ∧
    npMin (getColumn 0 [[(0 : ℝ), 1], [2, 3]]) = some 0 ∧
    npMax (getColumn 0 [[(0 : ℝ), 1], [2, 3]]) = some 2 ∧
    ((0 : ℝ) ≠ 2) := by
  refine ⟨?_, ?_, ?_, by norm_num, ?_, ?_, by norm_num⟩
  · norm_num [min_max_scaling, matrixEntries, npMin, npMax, min_def,
      max_def]
  · norm_num [getColumn, List.filterMap_cons]
  · norm_num [npMax, max_def]
  · norm_num [getColumn, List.filterMap_cons, npMin, min_def]
  · norm_num [getColumn, List.filterMap_cons, npMax, max_def]

/-- Witness for c2_global_scaling at the batch [[0,1],[2,3]]. -/
theorem c2_witness :
    npMin (matrixEntries [[0, 1], [2, 3]]) = some 0 ∧
    npMax (matrixEntries [[0, 1], [2, 3]]) = some 3 ∧
    ((0 : ℝ) < 3) ∧
    (∃ y, min_max_scaling [[0, 1], [2, 3]] = some y ∧
      npMin (matrixEntries y) = some (-1) ∧
      npMax (matrixEntries y) = some 1) := by
  refine ⟨?_, ?_, by norm_num, ?_⟩
  · norm_num [matrixEntries, npMin, min_def]
  · norm_num [matrixEntries, npMax, max_def]
  · exact c2_global_scaling [[0, 1], [2, 3]] 0 3
      (by norm_num [matrixEntries, npMin, min_def])
      (by norm_num [matrixEntries, npMax, max_def])
      (by norm_num)

theorem theta_plus_eq_set (theta : List ℝ) (k : Nat)
    (hk : k < theta.length) :
    theta_plus theta k = theta.set k (theta.getD k 0 + Real.pi / 2) := by
  have hlen : (theta_plus theta k).length = theta.length := by
    rw [theta_plus, vecAdd, List.length_zipWith, scaleVec, List.length_map,
      eyeRow, List.length_map, List.length_range]
    exact min_self _
  apply List.ext_getElem (by rw [hlen, List.length_set])
  intro j h1 h2
  simp only [theta_plus, vecAdd, scaleVec, eyeRow, List.getElem_zipWith,
    List.getElem_map, List.getElem_range, List.getElem_set]
  by_cases hjk : k = j
  · subst hjk
    rw [if_pos rfl, if_pos rfl, mul_one, List.getD_eq_getElem theta 0 hk]
  · rw [if_neg hjk, if_neg hjk, mul_zero, add_zero]

theorem theta_minus_eq_set (theta : List ℝ) (k : Nat)
    (hk : k < theta.length) :
    theta_minus theta k = theta.set k (theta.getD k 0 - Real.pi / 2) := by
  have hlen : (theta_minus theta k).length = theta.length := by
    rw [theta_minus, vecSub, List.length_zipWith, scaleVec, List.length_map,
      eyeRow, List.length_map, List.length_range]
    exact min_self _
  apply List.ext_getElem (by rw [hlen, List.length_set])
  intro j h1 h2
  simp only [theta_minus, vecSub, scaleVec, eyeRow, List.getElem_zipWith,
    List.getElem_map, List.getElem_range, List.getElem_set]
  by_cases hjk : k = j
  · subst hjk
    rw [if_pos rfl, if_pos rfl, mul_one, List.getD_eq_getElem theta 0 hk]
  · rw [if_neg hjk, if_neg hjk, mul_zero, sub_zero]

/-- Claim C7: B_grad evaluates one matrix per trainable angle, and its
k-th entry is exactly (pred(theta with angle k shifted by +pi/2) -
pred(theta with angle k shifted by -pi/2)) / 2, all other angles held
fixed. -/
theorem c7_parameter_shift (pred : List ℝ → List (List ℝ)) (theta : List ℝ)
    (k : Nat) (hk : k < theta.length) :
    (B_grad pred theta).length = theta.length ∧
    (B_grad pred theta)[k]? = some (matHalf (matSub
      (pred (theta.set k (theta.getD k 0 + Real.pi / 2)))
      (pred (theta.set k (theta.getD k 0 - Real.pi / 2))))) := by
  constructor
  · rw [B_grad, List.length_map, List.length_range]
  · rw [B_grad, List.getElem?_map, List.getElem?_range hk,
      Option.map_some', theta_plus_eq_set theta k hk,
      theta_minus_eq_set theta k hk]

/-- Witness for c7_parameter_shift at the one-angle prediction function
predW and theta = [0]. -/
theorem c7_witness :
    ((0 : Nat) < ([0] : List ℝ).length) ∧
    ((B_grad predW [0]).length = ([0] : List ℝ).length ∧
     (B_grad predW [0])[0]? = some (matHalf (matSub
       (predW (([0] : List ℝ).set 0 (([0] : List ℝ).getD 0 0 + Real.pi / 2)))
       (predW (([0] : List ℝ).set 0
         (([0] : List ℝ).getD 0 0 - Real.pi / 2)))))) :=
  ⟨by norm_num, c7_parameter_shift predW [0] 0 (by norm_num)⟩

theorem setParamsLoop_length (ps theta : List ℝ) :
    ∀ n, (setParamsLoop ps theta n).length = ps.length := by
  intro n
  induction n with
  | zero => rfl
  | succ n ih =>
    show ((setParamsLoop ps theta n).set n (theta.getD n 0)).length =
      ps.length
    rw [List.length_set, ih]

theorem setParamsLoop_getElem? (ps theta : List ℝ) :
    ∀ n j, (setParamsLoop ps theta n)[j]? =
      if j < n ∧ j < ps.length then some (theta.getD j 0) else ps[j]? := by
  intro n
  induction n with
  | zero =>
    intro j
    rw [if_neg (by omega)]
    rfl
  | succ n ih =>
    intro j
    show ((setParamsLoop ps theta n).set n (theta.getD n 0))[j]? = _
    rw [List.getElem?_set]
    by_cases hnj : n = j
    · subst hnj
      rw [if_pos rfl, setParamsLoop_length]
      by_cases hn : n < ps.length
      · rw [if_pos hn, if_pos ⟨Nat.lt_succ_self n, hn⟩]
      · rw [if_neg hn, if_neg (fun hc => hn hc.2),
          List.getElem?_eq_none (Nat.le_of_not_lt hn)]
    · rw [if_neg hnj, ih j]
      have hiff : (j < n ∧ j < ps.length) = (j < n + 1 ∧ j < ps.length) := by
        apply propext
        constructor
        · intro h
          exact ⟨by omega, h.2⟩
        · intro h
          exact ⟨by omega, h.2⟩
      exact if_congr (iff_of_eq hiff) rfl rfl

theorem setParamsLoop_idem (ps theta : List ℝ) :
    setParamsLoop (setParamsLoop ps theta theta.length) theta theta.length
      = setParamsLoop ps theta theta.length := by
  apply List.ext_getElem?
  intro j
  simp only [setParamsLoop_getElem?, setParamsLoop_length]
  by_cases hj : j < theta.length ∧ j < ps.length
  · simp [hj]
  · simp [hj]

/-- Claim C8: pred is deterministic and the first call does not perturb
the second: calling pred again, on the object state left by a first pred
call, with the same theta, returns the same probability matrix and the
same state.  The captured input states are copied per call and never
mutated, and rewriting the output-gate angles with the same theta is
idempotent. -/
theorem c8_pred_deterministic {σ : Type} (exec : List ℝ → σ → σ)
    (obs : List (σ → ℝ)) (s : QclState σ) (theta : List ℝ) :
    pred exec obs (pred exec obs s theta).2 theta = pred exec obs s theta := by
  have hupd : update_output_gate (update_output_gate s theta) theta =
      update_output_gate s theta := by
    rw [update_output_gate, update_output_gate]
    exact congrArg (QclState.mk theta s.input_state_list)
      (setParamsLoop_idem s.gate_params theta)
  simp only [pred]
  rw [hupd]
  exact rfl
